import Mathlib

/-!
Verification of the Zen JSON-output pipeline (`zen_json_output.py`).

The module scrapes GitHub pages for contributor email addresses.  We embed
its pure logic shallowly: HTTP responses are supplied by an `Http` oracle
(a record of functions from request parameters to response bodies/status),
and each Python function becomes a Lean function over that oracle.  The
regular-expression extractions are embedded as explicit character-list
scanners implementing Python `re` semantics for the concrete patterns used
by the source (leftmost match, `.` not matching newline, non-greedy = first
occurrence of the following literal, greedy = last occurrence on the line).
-/

/-- Boolean prefix test on character lists (used by the regex scanners to
try a literal at the current position). -/
def isPfx : List Char → List Char → Bool
  | [], _ => true
  | _ :: _, [] => false
  | a :: as, b :: bs => (a == b) && isPfx as bs

/-- Scan for the first occurrence of the literal `delim`, not crossing a
newline (Python `.` does not match `\n`).  Returns the characters before
the occurrence and the remainder after it. -/
def splitFirstNoNL (delim : List Char) : List Char → Option (List Char × List Char)
  | [] => none
  | c :: cs =>
    if isPfx delim (c :: cs) then some ([], (c :: cs).drop delim.length)
    else if c = '\n' then none
    else
      match splitFirstNoNL delim cs with
      | some (a, b) => some (c :: a, b)
      | none => none

/-- Python `s.split("/")`: split a character list on `'/'`, keeping empty
pieces; the result is always nonempty. -/
def pySplit : List Char → List (List Char)
  | [] => [[]]
  | c :: cs =>
    if c = '/' then [] :: pySplit cs
    else (c :: (pySplit cs).headD []) :: (pySplit cs).tail

/-- Python `parts[-1]` (with `[]` as the out-of-range default). -/
def lastD : List (List Char) → List Char
  | [] => []
  | x :: xs => if xs = [] then x else lastD xs

/-- Python `parts[-2]` (with `[]` as the out-of-range default). -/
def penultD (l : List (List Char)) : List Char := lastD l.dropLast

/-- The classified CLI target (`main`, lines 208–227 of the source). -/
inductive Target
  | user (username : String)
  | org (name : String)
  | repo (username repoName : String)
deriving DecidableEq

/-- A resolved contributor entry: email plus breach flag
(`return_results[contributor]` when an email was extracted). -/
structure EmailRecord where
  email : String
  pwned : Bool
deriving DecidableEq

/-- One outgoing HTTP request of the pipeline, for tracing which network
calls are issued and in which order. -/
inductive Request
  | userRepos (username : String)
  | contributors (owner repoName : String)
  | orgMembers (name : String)
  | commits (owner repoName author : String)
  | patch (owner repoName sha : String)
  | breach (email : String)
deriving DecidableEq

/-- The HTTP oracle: response bodies (and the breach-check status code)
for each request shape the source issues. -/
structure Http where
  userReposBody : String → String
  contributorsBody : String → String → String
  orgMembersBody : String → String
  commitsPage : String → String → String → String
  patchBody : String → String → String → String
  breachStatus : String → Nat

/-- The characters of the literal `"full_name":"`. -/
def fullNameLit : List Char :=
  ['"', 'f', 'u', 'l', 'l', '_', 'n', 'a', 'm', 'e', '"', ':', '"']

/-- The characters of the literal `"fork":`. -/
def forkLit : List Char := ['"', 'f', 'o', 'r', 'k', '"', ':']

/-- The literal head of the pattern
`"full_name":"<username>/(.*?)",.*?"fork":(.*?),`. -/
def fullNamePfx (u : List Char) : List Char := fullNameLit ++ u ++ ['/']

/-- One attempted match of the repo/fork regex at the current position:
the literal head, then the repo name up to the first `",`, then anything
up to the first `"fork":`, then the fork flag up to the first `,`
(all non-greedy, none crossing a newline). -/
def matchRepoAt (u s : List Char) : Option ((List Char × List Char) × List Char) :=
  if isPfx (fullNamePfx u) s then
    match splitFirstNoNL ['"', ','] (s.drop (fullNamePfx u).length) with
    | none => none
    | some (rep, s2) =>
      match splitFirstNoNL forkLit s2 with
      | none => none
      | some (_, s3) =>
        match splitFirstNoNL [','] s3 with
        | none => none
        | some (flag, s4) => some ((rep, flag), s4)
  else none

/-- `re.findall` for the repo/fork pattern: try a match at each position
(left to right), emit the two captures and continue after the match.
`fuel` is initialised with the string length, which bounds the number of
steps since every step consumes at least one character. -/
def extractPairsGo (u : List Char) : Nat → List Char → List (List Char × List Char)
  | 0, _ => []
  | _ + 1, [] => []
  | fuel + 1, c :: cs =>
    match matchRepoAt u (c :: cs) with
    | some (p, rest) => p :: extractPairsGo u fuel rest
    | none => extractPairsGo u fuel cs

/-- `re.findall(r'"full_name":"%s/(.*?)",.*?"fork":(.*?),' % username, body)`
(source line 61): all `(repo, forkFlag)` captures in document order. -/
def extractUserRepos (body username : String) : List (String × String) :=
  (extractPairsGo username.toList body.toList.length body.toList).map
    (fun pr => (⟨pr.1⟩, ⟨pr.2⟩))

/-- One attempted match of a pattern `LIT(.*?)DELIM` at the current
position (the shape of the profile-URL and commit-anchor regexes). -/
def matchCaptureAt (pfx : List Char) (delim : Char) (s : List Char) :
    Option (List Char × List Char) :=
  if isPfx pfx s then
    match splitFirstNoNL [delim] (s.drop pfx.length) with
    | some (a, b) => some (a, b)
    | none => none
  else none

/-- `re.findall` for a pattern `LIT(.*?)DELIM`: all captures, left to
right, continuing after each match.  `fuel` is initialised with the
string length. -/
def scanCapturesGo (pfx : List Char) (delim : Char) : Nat → List Char → List (List Char)
  | 0, _ => []
  | _ + 1, [] => []
  | fuel + 1, c :: cs =>
    match matchCaptureAt pfx delim (c :: cs) with
    | some (a, rest) => a :: scanCapturesGo pfx delim fuel rest
    | none => scanCapturesGo pfx delim fuel cs

/-- All captures of `LIT(.*?)DELIM` over a string. -/
def scanCaptures (pfx : List Char) (delim : Char) (s : List Char) : List (List Char) :=
  scanCapturesGo pfx delim s.length s

/-- `re.findall(r'https://github\.com/(.*?)"', body)` (source lines 41 and
85): every GitHub profile login appearing in the body. -/
def extractProfileLogins (body : String) : List String :=
  (scanCaptures "https://github.com/".toList '"' body.toList).map (fun l => ⟨l⟩)

/-- `re.search` for a pattern `LIT(.*?)DELIM`: the leftmost match only. -/
def searchCapture (pfx : List Char) (delim : Char) : List Char → Option (List Char)
  | [] => none
  | c :: cs =>
    match matchCaptureAt pfx delim (c :: cs) with
    | some (a, _) => some a
    | none => searchCapture pfx delim cs

/-- `re.search(r'href="/%s/%s/commit/(.*?)"' % (username, repo), body)`
(source line 111): the first commit anchor of the commits-by-author page. -/
def extractLatestCommitSha (body owner repoName : String) : Option String :=
  (searchCapture ("href=\"/" ++ owner ++ "/" ++ repoName ++ "/commit/").toList
      '"' body.toList).map (fun l => ⟨l⟩)

/-- Characters strictly before the last `'>'` of a list (the greedy
capture of `<(.*)>` once the segment is fixed). -/
def beforeLastGt (l : List Char) : List Char :=
  ((l.reverse.dropWhile (fun c => c ≠ '>')).drop 1).reverse

/-- `re.search(r'<(.*)>', body)` scanning loop: at each `'<'`, the greedy
`.*` runs to the end of the current line and backtracks to the last `'>'`
of that line; if the line has no `'>'` after the `'<'`, scanning resumes
one character further. -/
def emailGo : List Char → Option (List Char)
  | [] => none
  | c :: cs =>
    if c = '<' then
      if '>' ∈ cs.takeWhile (fun x => x ≠ '\n') then
        some (beforeLastGt (cs.takeWhile (fun x => x ≠ '\n')))
      else emailGo cs
    else emailGo cs

/-- `re.search(r'<(.*)>', commit_details)` (source line 122). -/
def extractEmail (body : String) : Option String :=
  (emailGo body.toList).map (fun l => ⟨l⟩)

/-- Modelled from the spec's words for comparison with `extractEmail`
(claim about "first `<` and last `>` occurring in the body"): the content
between the first `'<'` and the last `'>'` of the whole body, absent when
no such bracket pair exists. -/
def specEmailChars (l : List Char) : Option (List Char) :=
  if '<' ∈ l then
    if '>' ∈ (l.dropWhile (fun c => c ≠ '<')).drop 1 then
      some (beforeLastGt ((l.dropWhile (fun c => c ≠ '<')).drop 1))
    else none
  else none

/-- String wrapper of `specEmailChars`. -/
def extractEmailSpec (body : String) : Option String :=
  (specEmailChars body.toList).map (fun l => ⟨l⟩)

/-- The breach check of source line 127: GET the breach-database URL for
the email and interpret status 200 as breached. -/
def checkBreached (net : Http) (email : String) : Bool :=
  net.breachStatus email == 200

/-- `latest_commit` of `find_email_from_contributor` (source lines
111–115): the first commit anchor, or the literal `"dummy"` when the page
has no matching anchor. -/
def latestSha (net : Http) (username repoName contributor : String) : String :=
  (extractLatestCommitSha (net.commitsPage username repoName contributor)
      username repoName).getD "dummy"

/-- `commit_details` of `find_email_from_contributor` (source lines
117–120): the patch body fetched for the chosen commit identifier. -/
def patchDetails (net : Http) (username repoName contributor : String) : String :=
  net.patchBody username repoName (latestSha net username repoName contributor)

/-- The value stored under the contributor key (source lines 122–132):
an email/pwned record when a bracketed email was extracted from the
patch, `none` otherwise. -/
def contributorEntry (net : Http) (username repoName contributor : String) :
    Option EmailRecord :=
  (extractEmail (patchDetails net username repoName contributor)).map
    (fun email => { email := email, pwned := checkBreached net email })

/-- `find_email_from_contributor` (source lines 89–134): the returned
single-entry mapping together with the trace of HTTP requests issued
(commits page, patch, and the breach check only when an email was found). -/
def find_email_from_contributor (net : Http) (username repoName contributor : String) :
    List (String × Option EmailRecord) × List Request :=
  ([(contributor, contributorEntry net username repoName contributor)],
   [Request.commits username repoName contributor,
    Request.patch username repoName (latestSha net username repoName contributor)] ++
     (match extractEmail (patchDetails net username repoName contributor) with
      | some email => [Request.breach email]
      | none => []))

/-- The filtering loop of `find_repos_from_username` (source lines 62–66):
keep a repo exactly when its fork flag is the literal string `"false"`. -/
def nonForkedRepos (repos : List (String × String)) : List String :=
  repos.foldl (fun acc pr => if pr.2 = "false" then acc ++ [pr.1] else acc) []

/-- `find_repos_from_username` (source lines 45–66), with its request
trace. -/
def find_repos_from_username (net : Http) (username : String) :
    List String × List Request :=
  (nonForkedRepos (extractUserRepos (net.userReposBody username) username),
   [Request.userRepos username])

/-- The repo loop of `find_email_from_username` (source lines 148–152):
return the first contributor result that is a non-empty mapping,
accumulating the request trace of every repo examined. -/
def emailLoop (net : Http) (username : String) :
    List String → List Request → List (String × Option EmailRecord) × List Request
  | [], tr => ([], tr)
  | repoName :: rs, tr =>
    if (find_email_from_contributor net username repoName username).1 = [] then
      emailLoop net username rs
        (tr ++ (find_email_from_contributor net username repoName username).2)
    else
      ((find_email_from_contributor net username repoName username).1,
       tr ++ (find_email_from_contributor net username repoName username).2)

/-- `find_email_from_username` (source lines 137–152). -/
def find_email_from_username (net : Http) (username : String) :
    List (String × Option EmailRecord) × List Request :=
  emailLoop net username (find_repos_from_username net username).1
    (find_repos_from_username net username).2

/-- `find_contributors_from_repo` (source lines 23–42). -/
def find_contributors_from_repo (net : Http) (username repoName : String) :
    List String × List Request :=
  (extractProfileLogins (net.contributorsBody username repoName),
   [Request.contributors username repoName])

/-- Python dict insertion on an ordered association list: overwrite in
place when the key exists (keeping its original position), else append. -/
def dictInsert {α : Type} (m : List (String × α)) (k : String) (v : α) :
    List (String × α) :=
  if m.any (fun p => p.1 = k) then
    m.map (fun p => if p.1 = k then (k, v) else p)
  else m ++ [(k, v)]

/-- Python `dict.update`: insert every entry of `add`, in order. -/
def dictUpdate {α : Type} (m add : List (String × α)) : List (String × α) :=
  add.foldl (fun acc p => dictInsert acc p.1 p.2) m

/-- `find_emails_from_repo` (source lines 155–170): merge every
contributor's single-entry result, in contributor order. -/
def find_emails_from_repo (net : Http) (username repoName : String) :
    List (String × Option EmailRecord) × List Request :=
  ((find_contributors_from_repo net username repoName).1).foldl
    (fun acc c =>
      (dictUpdate acc.1 (find_email_from_contributor net username repoName c).1,
       acc.2 ++ (find_email_from_contributor net username repoName c).2))
    ([], (find_contributors_from_repo net username repoName).2)

/-- `find_users_from_organization` (source lines 69–86). -/
def find_users_from_organization (net : Http) (name : String) :
    List String × List Request :=
  (extractProfileLogins (net.orgMembersBody name), [Request.orgMembers name])

/-- `find_emails_from_organization_usernames` (source lines 173–186). -/
def find_emails_from_organization_usernames (net : Http) (usernames : List String) :
    List (String × Option EmailRecord) × List Request :=
  usernames.foldl
    (fun acc un =>
      (dictUpdate acc.1 (find_email_from_username net un).1,
       acc.2 ++ (find_email_from_username net un).2))
    ([], [])

/-- `if target.endswith("/"): target = target[:-1]` (source lines 204–206). -/
def stripSlash (t : List Char) : List Char :=
  if t.getLast? = some '/' then t.dropLast else t

/-- The username taken in the user/organization branch (source lines
212–215): the piece after the last separator when one is present,
otherwise the whole (stripped) input. -/
def classUsername (t : List Char) : List Char :=
  if '/' ∈ t then lastD (pySplit t) else t

/-- The target classification of `main` (source lines 204–227): strip one
trailing separator, then branch on the number of `'/'` characters;
strictly fewer than 4 separators is a user (or, under the flag, an
organization), exactly 4 is a repository URL, anything else is a fatal
input error (stderr message and `sys.exit(1)`, modelled as `Except.error`). -/
def classifyChars (is_org : Bool) (t0 : List Char) : Except String Target :=
  if (stripSlash t0).count '/' < 4 then
    (if is_org then Except.ok (Target.org ⟨classUsername (stripSlash t0)⟩)
     else Except.ok (Target.user ⟨classUsername (stripSlash t0)⟩))
  else if (stripSlash t0).count '/' = 4 then
    Except.ok (Target.repo ⟨penultD (pySplit (stripSlash t0))⟩
      ⟨lastD (pySplit (stripSlash t0))⟩)
  else Except.error "Invalid input target type."

/-- String wrapper of the classifier. -/
def classifyTarget (is_org : Bool) (target : String) : Except String Target :=
  classifyChars is_org target.toList

/-- The resolution phase of `main` (source lines 229–236): classify, then
run the branch selected by the target descriptor; a classification error
aborts before any request is issued. -/
def mainRun (net : Http) (is_org : Bool) (target : String) :
    Except String (List (String × Option EmailRecord) × List Request) :=
  match classifyTarget is_org target with
  | Except.error e => Except.error e
  | Except.ok (Target.user u) => Except.ok (find_email_from_username net u)
  | Except.ok (Target.org o) =>
      Except.ok
        ((find_emails_from_organization_usernames net
            (find_users_from_organization net o).1).1,
         (find_users_from_organization net o).2 ++
           (find_emails_from_organization_usernames net
             (find_users_from_organization net o).1).2)
  | Except.ok (Target.repo u r) => Except.ok (find_emails_from_repo net u r)

/-- The requests issued by a whole run (none when classification fails). -/
def mainRequests (net : Http) (is_org : Bool) (target : String) : List Request :=
  match mainRun net is_org target with
  | Except.ok pr => pr.2
  | Except.error _ => []

/-- Rendering of a response body that consists of `full_name`/`fork`
pairs in the shape the source's regex extracts (used to state the
completeness of `extractUserRepos`). -/
def renderChars (u : List Char) : List (List Char × List Char) → List Char
  | [] => []
  | p :: ps =>
    fullNamePfx u ++ p.1 ++ '"' :: ',' :: forkLit ++ p.2 ++ ',' :: renderChars u ps

/-- A concrete oracle: the user `alice` has two non-forked repos, her
commits pages show no commit anchor, and no patch contains an email. -/
def netA : Http where
  userReposBody := fun _ =>
    "\"full_name\":\"alice/r1\",\"fork\":false,\"full_name\":\"alice/r2\",\"fork\":false,"
  contributorsBody := fun _ _ => ""
  orgMembersBody := fun _ => ""
  commitsPage := fun _ _ _ => "no commit anchors here"
  patchBody := fun _ _ _ => "404: Not Found"
  breachStatus := fun _ => 404

/-- A concrete oracle: every patch carries the email `e@x.com` and the
breach database reports status 200 for every account. -/
def netB : Http where
  userReposBody := fun _ => ""
  contributorsBody := fun _ _ => ""
  orgMembersBody := fun _ => ""
  commitsPage := fun _ _ _ => ""
  patchBody := fun _ _ _ => "From: Q <e@x.com>"
  breachStatus := fun _ => 200

/-- A concrete oracle for the repo scenario: contributors `bob` and
`carol`; `bob` has a commit anchor whose patch carries `e1@x.com`
(breach status 404), `carol` has no anchor and the dummy patch carries
no email. -/
def netC : Http where
  userReposBody := fun _ => ""
  contributorsBody := fun _ _ =>
    "\"html_url\":\"https://github.com/bob\",\"html_url\":\"https://github.com/carol\","
  orgMembersBody := fun _ => ""
  commitsPage := fun _ _ c =>
    if c = "bob" then "<a href=\"/bob/proj/commit/abc123\">latest</a>" else "no anchors"
  patchBody := fun _ _ sha =>
    if sha = "abc123" then "From: Bob <e1@x.com>" else "404: Not Found"
  breachStatus := fun _ => 404

lemma fec_fst_nonempty (net : Http) (u r c : String) :
    (find_email_from_contributor net u r c).1 ≠ [] := by
  simp [find_email_from_contributor]

lemma emailLoop_cons (net : Http) (u r0 : String) (rs : List String) (tr : List Request) :
    emailLoop net u (r0 :: rs) tr =
      ((find_email_from_contributor net u r0 u).1,
       tr ++ (find_email_from_contributor net u r0 u).2) := by
  rw [emailLoop, if_neg (fec_fst_nonempty net u r0 u)]

/-- Claim C1: `find_email_from_username` walks the non-forked repos in
response order and returns the result of the first repo whose contributor
resolution is non-empty; since every contributor resolution is non-empty
(a null entry included), the first repo always wins, no later repo is
queried (the request trace covers the first repo only), and the empty
mapping is returned exactly when the repo list is empty. -/
theorem feu_first_repo (net : Http) (u r0 : String) (rs : List String) :
    ((find_repos_from_username net u).1 = r0 :: rs →
      find_email_from_username net u =
        ((find_email_from_contributor net u r0 u).1,
         Request.userRepos u :: (find_email_from_contributor net u r0 u).2))
    ∧ ((find_repos_from_username net u).1 = [] →
      find_email_from_username net u = ([], [Request.userRepos u])) := by
  constructor
  · intro h
    unfold find_email_from_username
    rw [h, emailLoop_cons]
    rfl
  · intro h
    unfold find_email_from_username
    rw [h, emailLoop]
    rfl

/-- Witness for C1: under the oracle `netA`, `alice` has repos
`[r1, r2]`, `r1` resolves to the null entry `{alice: null}`, and the
pipeline returns it without querying `r2`. -/
theorem feu_first_repo_witness :
    (find_repos_from_username netA "alice").1 = "r1" :: ["r2"]
    ∧ find_email_from_username netA "alice" =
        ((find_email_from_contributor netA "alice" "r1" "alice").1,
         Request.userRepos "alice" ::
           (find_email_from_contributor netA "alice" "r1" "alice").2) :=
  ⟨by decide, (feu_first_repo netA "alice" "r1" ["r2"]).1 (by decide)⟩

/-- Claim C9: `find_email_from_contributor` always returns a mapping with
exactly one key, the contributor argument; it is never empty, so the
short-circuit in `find_email_from_username` already fires on the first
repo examined. -/
theorem fec_single_key (net : Http) (u r c : String) :
    ((find_email_from_contributor net u r c).1.map Prod.fst = [c]
      ∧ (find_email_from_contributor net u r c).1 ≠ [])
    ∧ (∀ r0 rs, (find_repos_from_username net u).1 = r0 :: rs →
        (find_email_from_username net u).1 =
          (find_email_from_contributor net u r0 u).1) := by
  refine ⟨⟨rfl, fec_fst_nonempty net u r c⟩, ?_⟩
  intro r0 rs h
  unfold find_email_from_username
  rw [h, emailLoop_cons]

/-- Witness for C9 at the oracle `netA`. -/
theorem fec_single_key_witness :
    ((find_email_from_contributor netA "alice" "r1" "alice").1.map Prod.fst = ["alice"]
      ∧ (find_email_from_contributor netA "alice" "r1" "alice").1 ≠ [])
    ∧ (find_email_from_username netA "alice").1 =
        (find_email_from_contributor netA "alice" "r1" "alice").1 :=
  ⟨(fec_single_key netA "alice" "r1" "alice").1,
   (fec_single_key netA "alice" "r1" "alice").2 "r1" ["r2"] (by decide)⟩

/-- Claim C5: the breach check reports breached exactly on HTTP status
200, and the `pwned` flag of every emitted email record equals that
status test. -/
theorem checkBreached_200 (net : Http) (email : String) :
    (checkBreached net email = true ↔ net.breachStatus email = 200)
    ∧ (∀ u r c rec, (find_email_from_contributor net u r c).1 = [(c, some rec)] →
        (rec.pwned = true ↔ net.breachStatus rec.email = 200)) := by
  constructor
  · simp [checkBreached]
  · intro u r c rec h
    simp only [find_email_from_contributor, List.cons.injEq, Prod.mk.injEq, and_true,
      true_and] at h
    unfold contributorEntry at h
    rcases Option.map_eq_some'.mp h with ⟨em, _, hrec⟩
    rw [← hrec]
    simp [checkBreached]

/-- Witness for C5: under `netB` the breach endpoint answers 200 and the
emitted record for the extracted email `e@x.com` has `pwned = true`. -/
theorem checkBreached_200_witness :
    (⟨"e@x.com", true⟩ : EmailRecord).pwned = true ↔
      netB.breachStatus (⟨"e@x.com", true⟩ : EmailRecord).email = 200 :=
  (checkBreached_200 netB "e@x.com").2 "o" "p" "q" ⟨"e@x.com", true⟩ (by decide)

/-- Claim C8: when the commits-by-author page has no matching commit
anchor, the pipeline does not fail: it substitutes the literal
`"dummy"` commit identifier, still issues the patch fetch with it, and
produces its entry from that dummy patch body. -/
theorem fec_dummy_patch (net : Http) (u r c : String)
    (h : extractLatestCommitSha (net.commitsPage u r c) u r = none) :
    latestSha net u r c = "dummy"
    ∧ (find_email_from_contributor net u r c).2.take 2 =
        [Request.commits u r c, Request.patch u r "dummy"]
    ∧ (find_email_from_contributor net u r c).1 =
        [(c, (extractEmail (net.patchBody u r "dummy")).map
          (fun e => { email := e, pwned := checkBreached net e }))] := by
  have hsha : latestSha net u r c = "dummy" := by
    unfold latestSha
    rw [h]
    rfl
  refine ⟨hsha, ?_, ?_⟩
  · simp [find_email_from_contributor, hsha]
  · simp [find_email_from_contributor, contributorEntry, patchDetails, hsha]

/-- Witness for C8: under `netA` the commits page has no anchor and the
patch request is issued for the literal `dummy` identifier. -/
theorem fec_dummy_patch_witness :
    latestSha netA "alice" "r1" "alice" = "dummy"
    ∧ (find_email_from_contributor netA "alice" "r1" "alice").2.take 2 =
        [Request.commits "alice" "r1" "alice", Request.patch "alice" "r1" "dummy"]
    ∧ (find_email_from_contributor netA "alice" "r1" "alice").1 =
        [("alice", (extractEmail (netA.patchBody "alice" "r1" "dummy")).map
          (fun e => { email := e, pwned := checkBreached netA e }))] :=
  fec_dummy_patch netA "alice" "r1" "alice" (by decide)

lemma pySplit_ne_nil : ∀ s : List Char, pySplit s ≠ [] := by
  intro s
  cases s with
  | nil => simp [pySplit]
  | cons c cs => by_cases hc : c = '/' <;> simp [pySplit, hc]

lemma pySplit_no_slash : ∀ s : List Char, '/' ∉ s → pySplit s = [s] := by
  intro s
  induction s with
  | nil => intro _; rfl
  | cons c cs ih =>
    intro h
    have hc : c ≠ '/' := fun hc => h (hc ▸ List.mem_cons_self c cs)
    rw [pySplit, if_neg hc, ih (fun hm => h (List.mem_cons_of_mem c hm))]
    rfl

lemma pySplit_append : ∀ a b : List Char, pySplit (a ++ '/' :: b) = pySplit a ++ pySplit b := by
  intro a b
  induction a with
  | nil => simp [pySplit]
  | cons c a ih =>
    cases hpa : pySplit a with
    | nil => exact absurd hpa (pySplit_ne_nil a)
    | cons g gs =>
      by_cases hc : c = '/' <;> simp [pySplit, ih, hpa, hc]

lemma lastD_append_single : ∀ (A : List (List Char)) (u : List Char), lastD (A ++ [u]) = u := by
  intro A u
  induction A with
  | nil => rfl
  | cons a A ih =>
    rw [List.cons_append, lastD, if_neg (by simp), ih]

lemma dropLast_append_single : ∀ (A : List (List Char)) (u : List Char),
    (A ++ [u]).dropLast = A := by
  intro A u
  rw [List.dropLast_concat]

/-- Claim C4: when the stripped input's separator count matches neither
the user/organization shape nor the repository shape (i.e. it exceeds 4),
the run reports the invalid-target error (stderr diagnostic and non-zero
exit, modelled as `Except.error`) and issues no network request. -/
theorem classify_invalid_no_requests (net : Http) (flag : Bool) (target : String)
    (h : 4 < (stripSlash target.toList).count '/') :
    classifyTarget flag target = Except.error "Invalid input target type."
    ∧ mainRun net flag target = Except.error "Invalid input target type."
    ∧ mainRequests net flag target = [] := by
  have h1 : ¬ (stripSlash target.toList).count '/' < 4 := by omega
  have h2 : ¬ (stripSlash target.toList).count '/' = 4 := by omega
  have hc : classifyTarget flag target = Except.error "Invalid input target type." := by
    unfold classifyTarget classifyChars
    rw [if_neg h1, if_neg h2]
  refine ⟨hc, ?_, ?_⟩
  · unfold mainRun
    rw [hc]
  · unfold mainRequests mainRun
    rw [hc]

/-- Witness for C4: a target with six separators is rejected with no
request issued. -/
theorem classify_invalid_no_requests_witness :
    classifyTarget false "https://github.com/a/b/c/d" = Except.error "Invalid input target type."
    ∧ mainRun netA false "https://github.com/a/b/c/d" = Except.error "Invalid input target type."
    ∧ mainRequests netA false "https://github.com/a/b/c/d" = [] :=
  classify_invalid_no_requests netA false "https://github.com/a/b/c/d" (by decide)

/-- Counterexample to claim C2 as stated: `a/b/c/d/e` has exactly 4 path
separators ("4 or fewer"), yet the classifier produces
`Repo("d", "e")`, not `User("e")` — the code's user branch requires
strictly fewer than 4 separators. -/
theorem classify_four_separators_cex :
    (stripSlash "a/b/c/d/e".toList).count '/' = 4
    ∧ classifyTarget false "a/b/c/d/e" = Except.ok (Target.repo "d" "e")
    ∧ classifyTarget false "a/b/c/d/e" ≠ Except.ok (Target.user "e") := by
  refine ⟨by decide, rfl, ?_⟩
  intro h
  rw [show classifyTarget false "a/b/c/d/e" = Except.ok (Target.repo "d" "e") from rfl] at h
  exact Target.noConfusion (Except.ok.inj h)

/-- Claim C2 (amended: "3 or fewer separators", i.e. strictly fewer than
4): such an input, after stripping one trailing separator, is classified
as a User (or, with the organization flag, Organization) whose username
is the piece after the last separator when one is present, and the whole
stripped string otherwise. -/
theorem classify_user_shape (flag : Bool) (t : String) (pre u : List Char)
    (hc : (stripSlash t.toList).count '/' < 4) :
    ('/' ∉ stripSlash t.toList →
      classifyTarget flag t =
        Except.ok (if flag then Target.org ⟨stripSlash t.toList⟩
          else Target.user ⟨stripSlash t.toList⟩))
    ∧ (stripSlash t.toList = pre ++ '/' :: u → '/' ∉ u →
      classifyTarget flag t =
        Except.ok (if flag then Target.org ⟨u⟩ else Target.user ⟨u⟩)) := by
  constructor
  · intro hmem
    unfold classifyTarget classifyChars
    rw [if_pos hc]
    unfold classUsername
    rw [if_neg hmem]
    cases flag <;> rfl
  · intro hdec hu
    unfold classifyTarget classifyChars
    rw [if_pos hc]
    unfold classUsername
    have hmem : '/' ∈ stripSlash t.toList := by
      rw [hdec]
      simp
    rw [if_pos hmem, hdec, pySplit_append, pySplit_no_slash u hu, lastD_append_single]
    cases flag <;> rfl

/-- Witness for the amended C2: a profile URL with 3 separators is
classified as the user after the last separator. -/
theorem classify_user_shape_witness :
    classifyTarget false "https://github.com/octocat" = Except.ok (Target.user "octocat") :=
  (classify_user_shape false "https://github.com/octocat"
      "https://github.com".toList "octocat".toList (by decide)).2 (by decide) (by decide)

/-- Claim C10: an input with exactly 4 separators after stripping is
classified as `Repo(second-to-last segment, last segment)` for either
value of the organization flag — the repo shape takes precedence and the
flag is ignored. -/
theorem classify_repo_shape (flag : Bool) (t : String) (pre u r : List Char)
    (hdec : stripSlash t.toList = pre ++ '/' :: (u ++ '/' :: r))
    (hu : '/' ∉ u) (hr : '/' ∉ r)
    (hc : (stripSlash t.toList).count '/' = 4) :
    classifyTarget flag t = Except.ok (Target.repo ⟨u⟩ ⟨r⟩) := by
  unfold classifyTarget classifyChars
  have h1 : ¬ (stripSlash t.toList).count '/' < 4 := by omega
  rw [if_neg h1, if_pos hc, hdec, pySplit_append, pySplit_append,
    pySplit_no_slash u hu, pySplit_no_slash r hr]
  have hassoc : pySplit pre ++ ([u] ++ [r]) = (pySplit pre ++ [u]) ++ [r] :=
    (List.append_assoc _ _ _).symm
  rw [hassoc]
  unfold penultD
  rw [dropLast_append_single, lastD_append_single, lastD_append_single]

/-- Witness for C10: a repository URL in organization mode is still
classified as a repository. -/
theorem classify_repo_shape_witness :
    classifyTarget true "https://github.com/owner/repo" = Except.ok (Target.repo "owner" "repo") :=
  classify_repo_shape true "https://github.com/owner/repo"
    "https://github.com".toList "owner".toList "repo".toList
    (by decide) (by decide) (by decide) (by decide)

lemma mem_of_mem_takeWhile (p : Char → Bool) :
    ∀ (l : List Char) (a : Char), a ∈ l.takeWhile p → a ∈ l := by
  intro l
  induction l with
  | nil =>
    intro a h
    simp at h
  | cons c cs ih =>
    intro a h
    rw [List.takeWhile_cons] at h
    by_cases hp : p c = true
    · rw [if_pos hp] at h
      rcases List.mem_cons.mp h with h1 | h2
      · exact h1 ▸ List.mem_cons_self c cs
      · exact List.mem_cons_of_mem c (ih a h2)
    · rw [if_neg hp] at h
      simp at h

lemma takeWhile_no_nl : ∀ l : List Char, '\n' ∉ l →
    l.takeWhile (fun x => x ≠ '\n') = l := by
  intro l
  induction l with
  | nil => intro _; rfl
  | cons c cs ih =>
    intro h
    have hc : c ≠ '\n' := fun hc => h (hc ▸ List.mem_cons_self c cs)
    rw [List.takeWhile_cons, if_pos (by simp [hc]),
      ih (fun hm => h (List.mem_cons_of_mem c hm))]

lemma emailGo_none : ∀ l : List Char, '>' ∉ l → emailGo l = none := by
  intro l
  induction l with
  | nil => intro _; rfl
  | cons c cs ih =>
    intro h
    have hcs : '>' ∉ cs := fun hm => h (List.mem_cons_of_mem c hm)
    by_cases hc : c = '<'
    · have hseg : '>' ∉ cs.takeWhile (fun x => x ≠ '\n') :=
        fun hm => hcs (mem_of_mem_takeWhile _ cs '>' hm)
      rw [emailGo, if_pos hc, if_neg hseg, ih hcs]
    · rw [emailGo, if_neg hc, ih hcs]

lemma emailGo_spec : ∀ l : List Char, '\n' ∉ l → emailGo l = specEmailChars l := by
  intro l
  induction l with
  | nil => intro _; rfl
  | cons c cs ih =>
    intro h
    have hcs : '\n' ∉ cs := fun hm => h (List.mem_cons_of_mem c hm)
    by_cases hc : c = '<'
    · subst hc
      have hspec : specEmailChars ('<' :: cs) =
          if '>' ∈ cs then some (beforeLastGt cs) else none := by
        simp [specEmailChars, List.dropWhile_cons]
      rw [emailGo, if_pos rfl, takeWhile_no_nl cs hcs, hspec]
      by_cases hgt : '>' ∈ cs
      · rw [if_pos hgt, if_pos hgt]
      · rw [if_neg hgt, if_neg hgt, emailGo_none cs hgt]
    · rw [emailGo, if_neg hc, ih hcs]
      have hdrop : (c :: cs).dropWhile (fun x => x ≠ '<') =
          cs.dropWhile (fun x => x ≠ '<') := by
        rw [List.dropWhile_cons, if_pos (by simp [hc])]
      have hne : ¬ ('<' = c) := fun he => hc he.symm
      unfold specEmailChars
      rw [hdrop]
      simp [List.mem_cons, hne]

/-- Counterexample to claim C3 as stated: on the multi-line patch body
`"<a>\n<b>"` the code (whose `.` does not match a newline) extracts
`"a"`, not the content `"a>\n<b"` between the first `<` and the last `>`
of the whole body. -/
theorem extractEmail_multiline_cex :
    extractEmail "<a>\n<b>" = some "a"
    ∧ extractEmailSpec "<a>\n<b>" = some "a>\n<b"
    ∧ extractEmail "<a>\n<b>" ≠ extractEmailSpec "<a>\n<b>" := by decide

/-- Claim C3 (amended: restricted to bodies without a newline, since the
pattern `<(.*)>` never matches across lines): on such a body
`extractEmail` returns exactly the content between the first `<` and the
last `>`, and is absent when no `<...>` pair exists. -/
theorem extractEmail_first_last (body : String) (h : '\n' ∉ body.toList) :
    extractEmail body = extractEmailSpec body := by
  unfold extractEmail extractEmailSpec
  rw [emailGo_spec body.toList h]

/-- Witness for the amended C3: on `"From: A <a@b.com>"` both the code
and the first-`<`/last-`>` reading give `a@b.com`. -/
theorem extractEmail_first_last_witness :
    extractEmail "From: A <a@b.com>" = extractEmailSpec "From: A <a@b.com>"
    ∧ extractEmail "From: A <a@b.com>" = some "a@b.com" :=
  ⟨extractEmail_first_last "From: A <a@b.com>" (by decide), by decide⟩

lemma foldl_pair_fst (net : Http) (u r : String) :
    ∀ (cs : List String) (m : List (String × Option EmailRecord)) (tr : List Request),
    (cs.foldl (fun acc c =>
        (dictUpdate acc.1 (find_email_from_contributor net u r c).1,
         acc.2 ++ (find_email_from_contributor net u r c).2)) (m, tr)).1
      = cs.foldl (fun m c => dictInsert m c (contributorEntry net u r c)) m := by
  intro cs
  induction cs with
  | nil =>
    intro m tr
    rfl
  | cons c cs ih =>
    intro m tr
    rw [List.foldl_cons, List.foldl_cons]
    exact ih _ _

lemma dictInsert_not_mem {α : Type} (m : List (String × α)) (k : String) (v : α)
    (h : ∀ p ∈ m, p.1 ≠ k) : dictInsert m k v = m ++ [(k, v)] := by
  have hf : m.any (fun p => p.1 = k) = false := by
    rw [List.any_eq_false]
    intro p hp
    simpa using h p hp
  simp [dictInsert, hf]

lemma foldl_insert_nodup {α : Type} (f : String → α) :
    ∀ (cs : List String) (m : List (String × α)),
    cs.Nodup → (∀ c ∈ cs, ∀ p ∈ m, p.1 ≠ c) →
    cs.foldl (fun m c => dictInsert m c (f c)) m = m ++ cs.map (fun c => (c, f c)) := by
  intro cs
  induction cs with
  | nil =>
    intro m _ _
    simp
  | cons c cs ih =>
    intro m hnd hm
    rw [List.foldl_cons,
      dictInsert_not_mem m c (f c) (fun p hp => hm c (List.mem_cons_self c cs) p hp),
      ih (m ++ [(c, f c)]) (List.nodup_cons.mp hnd).2 ?_]
    · simp
    · intro c' hc' p hp
      rcases List.mem_append.mp hp with h1 | h2
      · exact hm c' (List.mem_cons_of_mem c hc') p h1
      · have hp2 : p = (c, f c) := List.mem_singleton.mp h2
        subst hp2
        intro he
        have he' : c = c' := he
        exact (List.nodup_cons.mp hnd).1 (by rw [he']; exact hc')

/-- Claim C6: `find_emails_from_repo` resolves every extracted
contributor and merges the single-entry results in contributor order
(Python dict update: an existing key is overwritten in place, so a
duplicated login keeps its first position with the last written value);
for pairwise-distinct contributors the result is exactly the ordered
list of per-contributor entries. -/
theorem fer_contributor_merge (net : Http) (u r : String) (cs : List String)
    (h : (find_contributors_from_repo net u r).1 = cs) :
    (find_emails_from_repo net u r).1 =
      cs.foldl (fun m c => dictInsert m c (contributorEntry net u r c)) []
    ∧ (cs.Nodup →
      (find_emails_from_repo net u r).1 =
        cs.map (fun c => (c, contributorEntry net u r c))) := by
  have h1 : (find_emails_from_repo net u r).1 =
      cs.foldl (fun m c => dictInsert m c (contributorEntry net u r c)) [] := by
    unfold find_emails_from_repo
    rw [h]
    exact foldl_pair_fst net u r cs [] _
  refine ⟨h1, fun hnd => ?_⟩
  rw [h1, foldl_insert_nodup (fun c => contributorEntry net u r c) cs [] hnd
    (by intro c _ p hp; simp at hp)]
  simp

/-- Witness for C6: under `netC`, `resolveRepo("bob", "proj")` with
contributors `[bob, carol]`, where bob yields `e1@x.com` (not breached)
and carol yields no email, produces
`{bob: {email: e1@x.com, pwned: false}, carol: null}`. -/
theorem fer_contributor_merge_witness :
    (find_emails_from_repo netC "bob" "proj").1 =
      [("bob", some ⟨"e1@x.com", false⟩), ("carol", none)] := by
  have h := (fer_contributor_merge netC "bob" "proj" ["bob", "carol"] (by decide)).2
    (by decide)
  rw [h]
  decide

lemma isPfx_append_self : ∀ p t : List Char, isPfx p (p ++ t) = true := by
  intro p t
  induction p with
  | nil => rfl
  | cons c p ih =>
    rw [List.cons_append, isPfx, ih]
    simp

lemma sF_quote_comma : ∀ (a b : List Char), '"' ∉ a → '\n' ∉ a →
    splitFirstNoNL ['"', ','] (a ++ '"' :: ',' :: b) = some (a, b) := by
  intro a
  induction a with
  | nil =>
    intro b _ _
    simp [splitFirstNoNL, isPfx]
  | cons c a ih =>
    intro b h hn
    have hc1 : ¬ ('"' = c) := fun hce => h (List.mem_cons.mpr (Or.inl hce))
    have hcn : ¬ (c = '\n') := fun hce => hn (List.mem_cons.mpr (Or.inl hce.symm))
    rw [List.cons_append, splitFirstNoNL, if_neg (by simp [isPfx, hc1]), if_neg hcn,
      ih b (fun hm => h (List.mem_cons_of_mem c hm))
        (fun hm => hn (List.mem_cons_of_mem c hm))]

lemma sF_comma : ∀ (a b : List Char), ',' ∉ a → '\n' ∉ a →
    splitFirstNoNL [','] (a ++ ',' :: b) = some (a, b) := by
  intro a
  induction a with
  | nil =>
    intro b _ _
    simp [splitFirstNoNL, isPfx]
  | cons c a ih =>
    intro b h hn
    have hc1 : ¬ (',' = c) := fun hce => h (List.mem_cons.mpr (Or.inl hce))
    have hcn : ¬ (c = '\n') := fun hce => hn (List.mem_cons.mpr (Or.inl hce.symm))
    rw [List.cons_append, splitFirstNoNL, if_neg (by simp [isPfx, hc1]), if_neg hcn,
      ih b (fun hm => h (List.mem_cons_of_mem c hm))
        (fun hm => hn (List.mem_cons_of_mem c hm))]

lemma sF_self (e : Char) (ds b : List Char) :
    splitFirstNoNL (e :: ds) ((e :: ds) ++ b) = some ([], b) := by
  rw [List.cons_append, splitFirstNoNL,
    if_pos (show isPfx (e :: ds) (e :: (ds ++ b)) = true from by
      rw [← List.cons_append, isPfx_append_self]),
    show (e :: (ds ++ b)).drop (e :: ds).length = b from by
      rw [← List.cons_append, List.drop_left]]

lemma sF_forkLit (b : List Char) :
    splitFirstNoNL forkLit (forkLit ++ b) = some ([], b) :=
  sF_self '"' ['f', 'o', 'r', 'k', '"', ':'] b

lemma matchRepoAt_render (u rep flag rest : List Char)
    (h1 : '"' ∉ rep) (h2 : '\n' ∉ rep) (h3 : ',' ∉ flag) (h4 : '\n' ∉ flag) :
    matchRepoAt u
        (fullNamePfx u ++ (rep ++ ('"' :: ',' :: (forkLit ++ (flag ++ (',' :: rest))))))
      = some ((rep, flag), rest) := by
  unfold matchRepoAt
  rw [isPfx_append_self, if_pos rfl, List.drop_left]
  simp only [sF_quote_comma rep (forkLit ++ (flag ++ (',' :: rest))) h1 h2,
    sF_forkLit (flag ++ (',' :: rest)), sF_comma flag rest h3 h4]

lemma extractPairsGo_render (u : List Char) :
    ∀ (ps : List (List Char × List Char)) (fuel : Nat),
    (∀ pr ∈ ps, '"' ∉ pr.1 ∧ '\n' ∉ pr.1 ∧ ',' ∉ pr.2 ∧ '\n' ∉ pr.2) →
    (renderChars u ps).length ≤ fuel →
    extractPairsGo u fuel (renderChars u ps) = ps := by
  intro ps
  induction ps with
  | nil =>
    intro fuel _ _
    cases fuel <;> rfl
  | cons p ps ih =>
    intro fuel hwf hlen
    have hwfp := hwf p (List.mem_cons_self p ps)
    have hwf' : ∀ pr ∈ ps, '"' ∉ pr.1 ∧ '\n' ∉ pr.1 ∧ ',' ∉ pr.2 ∧ '\n' ∉ pr.2 :=
      fun pr hpr => hwf pr (List.mem_cons_of_mem p hpr)
    have hrender : renderChars u (p :: ps) =
        fullNamePfx u ++ (p.1 ++ ('"' :: ',' :: (forkLit ++ (p.2 ++ (',' :: renderChars u ps))))) := by
      simp [renderChars]
    have hne : renderChars u (p :: ps) ≠ [] := by
      rw [hrender]
      simp [fullNamePfx, fullNameLit]
    have hlt : (renderChars u ps).length < (renderChars u (p :: ps)).length := by
      rw [hrender]
      simp [List.length_append, fullNamePfx, fullNameLit, forkLit]
      omega
    cases fuel with
    | zero =>
      exact absurd (List.length_eq_zero.mp (Nat.le_zero.mp hlen)) hne
    | succ f =>
      obtain ⟨c, cs, hcons⟩ : ∃ c cs, renderChars u (p :: ps) = c :: cs := by
        cases hcc : renderChars u (p :: ps) with
        | nil => exact absurd hcc hne
        | cons c cs => exact ⟨c, cs, rfl⟩
      have hm : matchRepoAt u (c :: cs) = some ((p.1, p.2), renderChars u ps) := by
        rw [← hcons, hrender]
        exact matchRepoAt_render u p.1 p.2 (renderChars u ps)
          hwfp.1 hwfp.2.1 hwfp.2.2.1 hwfp.2.2.2
      have hlen' : (renderChars u ps).length ≤ f := by omega
      rw [hcons]
      simp only [extractPairsGo, hm]
      rw [ih f hwf' hlen', Prod.mk.eta]

lemma map_pair_roundtrip : ∀ ps : List (String × String),
    (ps.map (fun pr => (pr.1.toList, pr.2.toList))).map
      (fun pr : List Char × List Char => ((⟨pr.1⟩ : String), (⟨pr.2⟩ : String))) = ps := by
  intro ps
  induction ps with
  | nil => rfl
  | cons p ps ih =>
    rw [List.map_cons, List.map_cons, ih]
    rfl

lemma nonForked_go : ∀ (l : List (String × String)) (acc : List String),
    l.foldl (fun acc pr => if pr.2 = "false" then acc ++ [pr.1] else acc) acc
      = acc ++ (l.filter (fun pr => pr.2 == "false")).map Prod.fst := by
  intro l
  induction l with
  | nil =>
    intro acc
    simp
  | cons p l ih =>
    intro acc
    rw [List.foldl_cons, List.filter_cons]
    by_cases hp : p.2 = "false"
    · rw [if_pos hp, ih, if_pos (by simp [hp])]
      simp
    · rw [if_neg hp, ih, if_neg (by simp [hp])]

/-- Claim C7: on a response body consisting of `full_name`/`fork` pairs
for the given username (each pair free of the characters that would end
a capture early: no quote or newline in a repo name, no comma or newline
in a fork flag), `extractUserRepos` returns exactly those `(repo,
forkFlag)` pairs in document order, and the non-forked filter keeps
exactly the repos whose flag is literally the string `"false"`. -/
theorem extractUserRepos_pairs (u : String) (ps : List (String × String))
    (hwf : ∀ pr ∈ ps, '"' ∉ pr.1.toList ∧ '\n' ∉ pr.1.toList
      ∧ ',' ∉ pr.2.toList ∧ '\n' ∉ pr.2.toList) :
    extractUserRepos ⟨renderChars u.toList (ps.map (fun pr => (pr.1.toList, pr.2.toList)))⟩ u = ps
    ∧ nonForkedRepos ps = (ps.filter (fun pr => pr.2 == "false")).map Prod.fst := by
  constructor
  · unfold extractUserRepos
    have hbody :
        (String.mk (renderChars u.toList (ps.map (fun pr => (pr.1.toList, pr.2.toList))))).toList
          = renderChars u.toList (ps.map (fun pr => (pr.1.toList, pr.2.toList))) := rfl
    rw [hbody, extractPairsGo_render u.toList (ps.map (fun pr => (pr.1.toList, pr.2.toList))) _
      ?_ (le_refl _)]
    · exact map_pair_roundtrip ps
    · intro pr hpr
      rcases List.mem_map.mp hpr with ⟨q, hq, hmap⟩
      rw [← hmap]
      exact hwf q hq
  · unfold nonForkedRepos
    rw [nonForked_go ps []]
    rfl

/-- Witness for C7: a two-pair body for `alice` with flags `false` and
`true`; both pairs are extracted in order and only the first repo
survives the filter. -/
theorem extractUserRepos_pairs_witness :
    extractUserRepos
        ⟨renderChars "alice".toList
          (([("r1", "false"), ("r2", "true")] : List (String × String)).map
            (fun pr => (pr.1.toList, pr.2.toList)))⟩ "alice"
      = [("r1", "false"), ("r2", "true")]
    ∧ nonForkedRepos [("r1", "false"), ("r2", "true")] =
        (([("r1", "false"), ("r2", "true")] : List (String × String)).filter
          (fun pr => pr.2 == "false")).map Prod.fst :=
  extractUserRepos_pairs "alice" [("r1", "false"), ("r2", "true")] (by decide)
